import Mathlib

/-!
# Verification of the containerd supervisor module

A shallow embedding, in Lean 4, of `cmd/moby/containerd.go`: the image-name
normalization (`ImageName`), the daemon supervisor (`NewContainerd`, `Kill`,
`Close`), the fetcher (`Fetch`), and the archiver (`Store`, `Bundle`).
Pure Go string functions are translated to Lean functions over `List Char`;
the stateful operations are translated to explicit state passing, with the
outcomes of the fallible OS primitives (temp-dir creation, file write, path
lookup, process start/kill, directory removal, subprocess run) supplied as
explicit parameters of an environment record.
-/

/-! ## Go standard-library string primitives

These model the behaviour of the Go standard-library functions the module
calls: `strings.SplitN`, `strings.Replace` (replace-all with an empty
replacement), `strings.TrimPrefix` of the path separator, `path/filepath.Clean`
and `path/filepath.Join` (on a Unix separator), and the `%s`-verbs of
`fmt.Sprintf`.
-/

/-- The first split of a list at a separator character: `some (a, b)` when
the list is `a ++ sep :: b` with `sep ∉ a`, `none` when the separator does
not occur. This is the one step `strings.SplitN` repeats. -/
def splitFirst (sep : Char) : List Char → Option (List Char × List Char)
  | [] => none
  | c :: cs =>
    if c = sep then some ([], cs)
    else
      match splitFirst sep cs with
      | none => none
      | some (a, b) => some (c :: a, b)

/-- Go `strings.SplitN s sep n` for a single-character separator and `n > 0`:
split around the first `n-1` occurrences of `sep`; the final element holds the
unsplit remainder. -/
def splitN (sep : Char) : Nat → List Char → List (List Char)
  | 0, _ => []
  | 1, l => [l]
  | n + 2, l =>
    match splitFirst sep l with
    | none => [l]
    | some (a, b) => a :: splitN sep (n + 1) b

/-- Split on every occurrence of the separator (Go `strings.Split`). -/
def splitAll (sep : Char) : List Char → List (List Char)
  | [] => [[]]
  | c :: cs =>
    if c = sep then [] :: splitAll sep cs
    else
      match splitAll sep cs with
      | [] => [[c]]
      | s :: ss => (c :: s) :: ss

/-- Join segments with a separator character (inverse of `splitAll`). -/
def intercalateSep (sep : Char) : List (List Char) → List Char
  | [] => []
  | [s] => s
  | s :: rest => s ++ sep :: intercalateSep sep rest

/-! ## The `ImageName` function (`containerd.go`, lines 125-140)

```go
func ImageName(image string) string {
    slash := strings.SplitN(image, "/", 3)
    switch len(slash) {
    case 1:
        image = "docker.io/library/" + image
    case 2:
        image = "docker.io/" + image
    }
    colon := strings.SplitN(image, ":", 2)
    if len(colon) != 2 {
        image = image + ":latest"
    }
    return image
}
```
-/

/-- The computation of `ImageName` on the character list of the argument; the `switch` on the
split length is rendered as the equivalent if-chain. -/
def imageNameL (image : List Char) : List Char :=
  let slash := splitN '/' 3 image
  let image :=
    if slash.length = 1 then "docker.io/library/".data ++ image
    else if slash.length = 2 then "docker.io/".data ++ image
    else image
  let colon := splitN ':' 2 image
  if colon.length ≠ 2 then image ++ ":latest".data else image

/-- Function `ImageName` takes a Docker style repo name and returns a fully qualified
name (`containerd.go`, lines 125-140). -/
def ImageName (s : String) : String := ⟨imageNameL s.data⟩

/-- The description in the specification of the normalization (`spec.md` §4.1),
phrased through occurrence counts instead of `SplitN`: an input with no `/`
is a 1-part input, one `/` a 2-part input, two or more a 3-part input; a tag
is absent exactly when the (prefixed) name holds no `:`. -/
def normalizeSpecL (l : List Char) : List Char :=
  let base : List Char :=
    if l.count '/' = 0 then "docker.io/library/".data ++ l
    else if l.count '/' = 1 then "docker.io/".data ++ l
    else l
  if base.count ':' = 0 then base ++ ":latest".data else base

/-- A string-level wrapper of `normalizeSpecL`. -/
def NormalizeSpec (s : String) : String := ⟨normalizeSpecL s.data⟩

example : ImageName "alpine" = "docker.io/library/alpine:latest" := by decide
example : ImageName "library/alpine" = "docker.io/library/alpine:latest" := by decide
example : ImageName "docker.io/library/alpine:3.5" = "docker.io/library/alpine:3.5" := by decide
example : ImageName "localhost:5000/alpine" = "docker.io/localhost:5000/alpine" := by decide
example : NormalizeSpec "alpine" = "docker.io/library/alpine:latest" := by decide

/-! ### Split lemmas -/

theorem splitFirst_eq_none {sep : Char} {l : List Char} :
    splitFirst sep l = none ↔ l.count sep = 0 := by
  induction l with
  | nil => simp [splitFirst]
  | cons c cs ih =>
    by_cases h : c = sep
    · subst h
      simp [splitFirst, List.count_cons]
    · cases hs : splitFirst sep cs with
      | none =>
        simp only [splitFirst, if_neg h, hs]
        simp only [hs, true_iff] at ih
        simp [List.count_cons, ih, Ne.symm h]
      | some p =>
        simp only [splitFirst, if_neg h, hs]
        constructor
        · intro hcontr
          simp at hcontr
        · intro hcount
          exfalso
          simp only [List.count_cons, beq_iff_eq, if_neg h, Nat.add_zero] at hcount
          have hnone := ih.mpr hcount
          rw [hnone] at hs
          simp at hs

theorem splitFirst_eq_some {sep : Char} {l a b : List Char}
    (h : splitFirst sep l = some (a, b)) : l = a ++ sep :: b ∧ a.count sep = 0 := by
  induction l generalizing a b with
  | nil => simp [splitFirst] at h
  | cons c cs ih =>
    by_cases hc : c = sep
    · subst hc
      simp only [splitFirst, if_pos rfl, Option.some.injEq, Prod.mk.injEq] at h
      obtain ⟨rfl, rfl⟩ := h
      simp
    · simp only [splitFirst, if_neg hc] at h
      cases hs : splitFirst sep cs with
      | none => rw [hs] at h; simp at h
      | some p =>
        obtain ⟨a2, b2⟩ := p
        rw [hs] at h
        simp only [Option.some.injEq, Prod.mk.injEq] at h
        obtain ⟨rfl, rfl⟩ := h
        obtain ⟨hl, hcnt⟩ := ih hs
        subst hl
        refine ⟨by simp, ?_⟩
        simp [List.count_cons, hcnt, Ne.symm hc, hc]

theorem splitFirst_count {sep : Char} {l a b : List Char}
    (h : splitFirst sep l = some (a, b)) : l.count sep = b.count sep + 1 := by
  obtain ⟨hl, hcnt⟩ := splitFirst_eq_some h
  subst hl
  simp [List.count_append, List.count_cons, hcnt]

/-- The tag check: `SplitN image ":" 2` has length two exactly when a colon
occurs in `image`. -/
theorem splitN_two_length {sep : Char} {l : List Char} :
    (splitN sep 2 l).length = 2 ↔ l.count sep ≠ 0 := by
  cases hs : splitFirst sep l with
  | none =>
    have := splitFirst_eq_none.mp hs
    simp [splitN, hs, this]
  | some p =>
    obtain ⟨a, b⟩ := p
    have := splitFirst_count hs
    simp [splitN, hs]
    omega

/-- Length of `SplitN image "/" 3`, expressed through the occurrence count. -/
theorem splitN_three_length {sep : Char} {l : List Char} :
    (splitN sep 3 l).length =
      if l.count sep = 0 then 1 else if l.count sep = 1 then 2 else 3 := by
  cases hs : splitFirst sep l with
  | none =>
    have := splitFirst_eq_none.mp hs
    simp [splitN, hs, this]
  | some p =>
    obtain ⟨a, b⟩ := p
    have hcnt := splitFirst_count hs
    cases hs2 : splitFirst sep b with
    | none =>
      have hb := splitFirst_eq_none.mp hs2
      simp [splitN, hs, hs2, hcnt, hb]
    | some q =>
      obtain ⟨a2, b2⟩ := q
      have hcnt2 := splitFirst_count hs2
      have h1 : l.count sep ≠ 0 := by omega
      have h2 : l.count sep ≠ 1 := by omega
      simp [splitN, hs, hs2, h1, h2]

/-- The tag-appending step, rephrased: `SplitN image ":" 2` fails to have two
parts exactly when `image` holds no colon. -/
theorem tagStep (l : List Char) :
    (if (splitN ':' 2 l).length ≠ 2 then l ++ ":latest".data else l)
      = if l.count ':' = 0 then l ++ ":latest".data else l := by
  by_cases hc : l.count ':' = 0
  · rw [if_pos (fun h2 => (splitN_two_length.mp h2) hc), if_pos hc]
  · rw [if_neg (fun hne => hne (splitN_two_length.mpr hc)), if_neg hc]

theorem imageNameL_eq_spec (l : List Char) : imageNameL l = normalizeSpecL l := by
  have hsplit := @splitN_three_length '/' l
  rw [imageNameL, normalizeSpecL]
  rw [hsplit]
  by_cases h0 : l.count '/' = 0
  · rw [if_pos h0]
    rw [if_pos h0]
    rw [if_pos (show (1 : Nat) = 1 from rfl)]
    exact tagStep _
  · rw [if_neg h0, if_neg h0]
    by_cases h1 : l.count '/' = 1
    · rw [if_pos h1, if_pos h1]
      rw [if_neg (show (2 : Nat) ≠ 1 by decide), if_pos (show (2 : Nat) = 2 from rfl)]
      exact tagStep _
    · rw [if_neg h1, if_neg h1]
      rw [if_neg (show (3 : Nat) ≠ 1 by decide), if_neg (show (3 : Nat) ≠ 2 by decide)]
      exact tagStep _

/-- C1. The function `ImageName` realizes the normalization of the spec: the input is split
on `/` into at most three parts, a 1-part input gains the
`docker.io/library/` front, a 2-part input the `docker.io/` front, a 3-part
input is unchanged, and `:latest` is appended exactly when no `:` is present
afterwards; in particular the three documented examples hold. The function is
total (pure, no failure modes). -/
theorem imageName_normalize :
    (∀ s : String, ImageName s = NormalizeSpec s)
    ∧ ImageName "alpine" = "docker.io/library/alpine:latest"
    ∧ ImageName "library/alpine" = "docker.io/library/alpine:latest"
    ∧ ImageName "docker.io/library/alpine:3.5" = "docker.io/library/alpine:3.5" := by
  refine ⟨?_, by decide, by decide, by decide⟩
  intro s
  show (⟨imageNameL s.data⟩ : String) = (⟨normalizeSpecL s.data⟩ : String)
  rw [imageNameL_eq_spec]

/-- C10. A two-segment input whose first segment holds a `:` (a registry
host with an explicit port) gains the `docker.io/` front but no `:latest`
tag: the tag check splits the whole prefixed string on `:` and the port's
colon satisfies it, so the result is exactly `"docker.io/" ++ input`. -/
theorem imageName_port_colon (s : String) (a b : List Char)
    (hsplit : splitFirst '/' s.data = some (a, b))
    (hb : b.count '/' = 0)
    (ha : ':' ∈ a) :
    ImageName s = "docker.io/" ++ s := by
  have hcount : s.data.count '/' = 1 := by
    rw [splitFirst_count hsplit, hb]
  have h0 : ¬ s.data.count '/' = 0 := by omega
  obtain ⟨hl, -⟩ := splitFirst_eq_some hsplit
  have hcolon : s.data.count ':' ≠ 0 := by
    rw [hl, List.count_append]
    have : 0 < a.count ':' := List.count_pos_iff.mpr ha
    omega
  have hbase : ("docker.io/".data ++ s.data).count ':' ≠ 0 := by
    rw [List.count_append]
    have h9 : "docker.io/".data.count ':' = 0 := by decide
    omega
  show (⟨imageNameL s.data⟩ : String) = "docker.io/" ++ s
  rw [imageNameL_eq_spec, normalizeSpecL]
  rw [if_neg h0, if_pos hcount, if_neg hbase]
  show (⟨"docker.io/".data ++ s.data⟩ : String) = "docker.io/" ++ s
  rfl

/-- Witness for `imageName_port_colon` at the concrete input
`"localhost:5000/alpine"`. -/
theorem imageName_port_colon_witness :
    ImageName "localhost:5000/alpine" = "docker.io/" ++ "localhost:5000/alpine" :=
  imageName_port_colon "localhost:5000/alpine" "localhost:5000".data "alpine".data
    (by decide) (by decide) (by decide)

/-! ## Path cleaning (`path/filepath.Clean` and `Join` on a Unix separator)

`Clean` is modelled by its documented algorithm: split on `/`, drop empty and
`.` segments, resolve `..` against a stack (dropping a leading `..` only on a
rooted path), rejoin, and restore the leading `/`; an empty result is `.`
(or `/` when rooted). -/

/-- The element-stack pass of `Clean`. -/
def cleanSegs (rooted : Bool) : List (List Char) → List (List Char) → List (List Char)
  | [], acc => acc.reverse
  | s :: rest, acc =>
    if s = [] ∨ s = ['.'] then cleanSegs rooted rest acc
    else if s = ['.', '.'] then
      match acc with
      | [] => if rooted then cleanSegs rooted rest [] else cleanSegs rooted rest [['.', '.']]
      | t :: acc2 =>
        if t = ['.', '.'] then cleanSegs rooted rest (s :: t :: acc2)
        else cleanSegs rooted rest acc2
    else cleanSegs rooted rest (s :: acc)

/-- Does the path begin with the separator? (`os.IsPathSeparator(path[0])`.) -/
def isRooted : List Char → Bool
  | '/' :: _ => true
  | _ => false

/-- Go `path/filepath.Clean` for the `/` separator. -/
def clean (p : List Char) : List Char :=
  if p = [] then ['.']
  else
    let rooted : Bool := isRooted p
    let segs := cleanSegs rooted (splitAll '/' p) []
    let out := intercalateSep '/' segs
    if rooted then (if out = [] then ['/'] else '/' :: out)
    else (if out = [] then ['.'] else out)

/-- Go `path/filepath.Join` of two elements: empty elements are skipped and
the joined path is cleaned. -/
def filepathJoin (a b : List Char) : List Char :=
  if a = [] then (if b = [] then [] else clean b)
  else clean (a ++ '/' :: b)

/-- Function `filepath.Join` on strings. -/
def filepathJoinS (a b : String) : String := ⟨filepathJoin a.data b.data⟩

example : filepathJoinS "/tmp/x" "root" = "/tmp/x/root" := by decide
example : filepathJoinS "var/lib/containerd/" "a/b" = "var/lib/containerd/a/b" := by decide
example : filepathJoinS "var/lib/containerd/" "" = "var/lib/containerd" := by decide
example : clean "/a/../b//c/".data = "/b/c".data := by decide
example : clean "a/../../b".data = "../b".data := by decide

/-- Go `strings.TrimPrefix s string(filepath.Separator)`: remove one leading
`/` when present. -/
def trimSep (s : List Char) : List Char :=
  match s with
  | '/' :: rest => rest
  | _ => s

/-- Does `pat` occur as a contiguous run inside `s`? (Go `strings.Contains`.) -/
def containsSeq (pat : List Char) : List Char → Bool
  | [] => pat.isEmpty
  | c :: cs => pat.isPrefixOf (c :: cs) || containsSeq pat cs

/-- One pass of Go `strings.Replace(s, pat, "", -1)`: scan left to right,
deleting every non-overlapping occurrence of `pat`. The fuel argument (seeded
with the length of `s`) only serves structural recursion. -/
def replaceAllFuel (pat : List Char) : Nat → List Char → List Char
  | 0, s => s
  | _ + 1, [] => []
  | fuel + 1, c :: cs =>
    if pat ≠ [] ∧ pat.isPrefixOf (c :: cs) then
      replaceAllFuel pat fuel ((c :: cs).drop pat.length)
    else c :: replaceAllFuel pat fuel cs

/-- Go `strings.Replace(s, pat, "", -1)`. -/
def replaceAll (pat s : List Char) : List Char := replaceAllFuel pat s.length s

example : replaceAll "ab".data "xabyab".data = "xy".data := by decide
example : replaceAll "/tmp/x".data "/tmp/x/tmp/x/f".data = "/f".data := by decide

/-- A well-formed path segment: non-empty and neither `.` nor `..`. -/
def goodSeg (s : List Char) : Bool :=
  !(s == []) && !(s == ['.']) && !(s == ['.', '.'])

/-- A well-formed relative path: every `/`-segment is a good segment (hence
no leading, trailing, or doubled separator, and no dot segments). -/
def goodRel (rel : List Char) : Bool := (splitAll '/' rel).all goodSeg

/-! ### Path lemmas -/

theorem isPfxOf_append (a b : List Char) : a.isPrefixOf (a ++ b) = true := by
  induction a with
  | nil => simp [List.isPrefixOf]
  | cons c cs ih => simp [List.isPrefixOf, ih]

theorem splitAll_ne_nil {sep : Char} {l : List Char} : splitAll sep l ≠ [] := by
  cases l with
  | nil => simp [splitAll]
  | cons c cs =>
    by_cases h : c = sep
    · simp [splitAll, h]
    · simp only [splitAll, if_neg h]
      cases hs : splitAll sep cs <;> simp

theorem splitAll_cons_sep {sep : Char} (t : List Char) :
    splitAll sep (sep :: t) = [] :: splitAll sep t := by
  simp [splitAll]

theorem splitAll_append_sep {sep : Char} (xs ys : List Char) :
    splitAll sep (xs ++ sep :: ys) = splitAll sep xs ++ splitAll sep ys := by
  induction xs with
  | nil => simp [splitAll_cons_sep, splitAll]
  | cons c cs ih =>
    by_cases h : c = sep
    · subst h
      rw [List.cons_append, splitAll_cons_sep, splitAll_cons_sep, ih]
      simp
    · rw [List.cons_append]
      simp only [splitAll, if_neg h, ih]
      cases hs : splitAll sep cs with
      | nil => exact absurd hs splitAll_ne_nil
      | cons s ss => simp

theorem intercalateSep_splitAll {sep : Char} (x : List Char) :
    intercalateSep sep (splitAll sep x) = x := by
  induction x with
  | nil => simp [splitAll, intercalateSep]
  | cons c cs ih =>
    by_cases h : c = sep
    · rw [h]
      rw [splitAll_cons_sep]
      cases hs : splitAll sep cs with
      | nil => exact absurd hs splitAll_ne_nil
      | cons s ss =>
        rw [hs] at ih
        simp [intercalateSep, ih]
    · simp only [splitAll, if_neg h]
      cases hs : splitAll sep cs with
      | nil => exact absurd hs splitAll_ne_nil
      | cons s ss =>
        rw [hs] at ih
        cases ss with
        | nil => simp only [intercalateSep] at ih ⊢; rw [ih]
        | cons t ts =>
          simp only [intercalateSep] at ih ⊢
          rw [List.cons_append, ih]

theorem intercalateSep_append {sep : Char} (xs ys : List (List Char))
    (hxs : xs ≠ []) (hys : ys ≠ []) :
    intercalateSep sep (xs ++ ys)
      = intercalateSep sep xs ++ sep :: intercalateSep sep ys := by
  induction xs with
  | nil => exact absurd rfl hxs
  | cons x xs2 ih =>
    cases xs2 with
    | nil =>
      cases ys with
      | nil => exact absurd rfl hys
      | cons y yts => simp [intercalateSep]
    | cons x2 rest =>
      have h2 : x2 :: rest ≠ [] := by simp
      rw [List.cons_append]
      have hne : (x2 :: rest) ++ ys ≠ [] := by simp
      calc intercalateSep sep (x :: ((x2 :: rest) ++ ys))
          = x ++ sep :: intercalateSep sep ((x2 :: rest) ++ ys) := by
            cases hcat : (x2 :: rest) ++ ys with
            | nil => exact absurd hcat hne
            | cons z zs => simp [intercalateSep]
        _ = x ++ sep :: (intercalateSep sep (x2 :: rest) ++ sep :: intercalateSep sep ys) := by
            rw [ih h2]
        _ = intercalateSep sep (x :: x2 :: rest) ++ sep :: intercalateSep sep ys := by
            simp [intercalateSep]

/-- On segment lists free of `.` and `..`, the stack pass of `Clean` merely
drops the empty segments. -/
theorem cleanSegs_no_dots (rooted : Bool) (segs : List (List Char)) :
    ∀ acc : List (List Char),
      (∀ s ∈ segs, s = [] ∨ goodSeg s = true) →
      cleanSegs rooted segs acc = acc.reverse ++ segs.filter (fun s => !(s == [])) := by
  induction segs with
  | nil => intro acc _; simp [cleanSegs]
  | cons s rest ih =>
    intro acc hall
    have hs := hall s (List.mem_cons_self s rest)
    have hrest : ∀ x ∈ rest, x = [] ∨ goodSeg x = true :=
      fun x hx => hall x (List.mem_cons_of_mem s hx)
    cases hs with
    | inl hnil =>
      subst hnil
      rw [show cleanSegs rooted ([] :: rest) acc = cleanSegs rooted rest acc from by
        simp [cleanSegs]]
      rw [ih acc hrest]
      rw [show List.filter (fun s => !(s == ([] : List Char))) ([] :: rest)
            = List.filter (fun s => !(s == ([] : List Char))) rest from by
        rw [List.filter_cons]
        simp]
    | inr hgood =>
      have hsne : s ≠ [] := by intro hh; subst hh; exact absurd hgood (by decide)
      have hdot : s ≠ ['.'] := by intro hh; subst hh; exact absurd hgood (by decide)
      have h2 : s ≠ ['.', '.'] := by intro hh; subst hh; exact absurd hgood (by decide)
      have h1 : ¬ (s = [] ∨ s = ['.']) := by
        rintro (hh | hh)
        exacts [hsne hh, hdot hh]
      rw [show cleanSegs rooted (s :: rest) acc = cleanSegs rooted rest (s :: acc) from by
        simp [cleanSegs, h1, h2]]
      rw [ih (s :: acc) hrest]
      have hbe : (s == ([] : List Char)) = false := by
        rcases s with _ | _
        · exact absurd (Or.inl rfl) h1
        · simp
      rw [List.filter_cons]
      rw [show (!(s == ([] : List Char))) = true from by rw [hbe]; rfl]
      simp

theorem goodRel_segs {b : List Char} (hb : goodRel b = true) :
    ∀ s ∈ splitAll '/' b, goodSeg s = true :=
  List.all_eq_true.mp hb

theorem goodRel_ne_nil {b : List Char} (hb : goodRel b = true) : b ≠ [] := by
  intro h
  subst h
  exact absurd hb (by decide)

theorem goodSeg_ne_nil {s : List Char} (h : goodSeg s = true) : (s == ([] : List Char)) = false := by
  simp only [goodSeg, Bool.and_eq_true] at h
  simpa using h.1.1 

/-! ### Replace lemmas -/

theorem replaceAllFuel_no_occ {pat : List Char} :
    ∀ (fuel : Nat) (s : List Char), containsSeq pat s = false →
      replaceAllFuel pat fuel s = s := by
  intro fuel
  induction fuel with
  | zero => intro s _; rfl
  | succ n ih =>
    intro s hocc
    cases s with
    | nil => rfl
    | cons c cs =>
      simp only [containsSeq, Bool.or_eq_false_iff] at hocc
      rw [show replaceAllFuel pat (n + 1) (c :: cs)
            = c :: replaceAllFuel pat n cs from by
        rw [replaceAllFuel]
        rw [if_neg (fun hand => by
          have := hand.2
          rw [hocc.1] at this
          exact Bool.false_ne_true this)]]
      rw [ih cs hocc.2]

theorem replaceAll_no_occ {pat s : List Char} (h : containsSeq pat s = false) :
    replaceAll pat s = s :=
  replaceAllFuel_no_occ _ s h

/-- Deleting every occurrence of `pat` from `pat ++ t` leaves `t` when `pat`
does not occur inside `t`. -/
theorem replaceAll_strip {p : Char} {ps t : List Char}
    (h : containsSeq (p :: ps) t = false) :
    replaceAll (p :: ps) ((p :: ps) ++ t) = t := by
  show replaceAllFuel (p :: ps) ((p :: ps) ++ t).length ((p :: ps) ++ t) = t
  have hlen : ((p :: ps) ++ t).length = (ps ++ t).length + 1 := by simp
  rw [hlen]
  have hpfx : (p :: ps).isPrefixOf ((p :: ps) ++ t) = true := isPfxOf_append _ _
  rw [show ((p :: ps) ++ t) = p :: (ps ++ t) from rfl] at hpfx ⊢
  rw [replaceAllFuel]
  rw [if_pos ⟨List.cons_ne_nil p ps, hpfx⟩]
  rw [show (p :: (ps ++ t)).drop (p :: ps).length = t from by
    rw [List.length_cons, List.drop_succ_cons, List.drop_left]]
  exact replaceAllFuel_no_occ _ t h

/-! ### Clean/Join on well-formed paths -/

theorem filter_good_segs {segs : List (List Char)}
    (h : ∀ s ∈ segs, goodSeg s = true) :
    segs.filter (fun s => !(s == ([] : List Char))) = segs := by
  induction segs with
  | nil => rfl
  | cons s rest ih =>
    rw [List.filter_cons]
    rw [show (!(s == ([] : List Char))) = true from by
      rw [goodSeg_ne_nil (h s (List.mem_cons_self s rest))]; rfl]
    rw [ih (fun x hx => h x (List.mem_cons_of_mem s hx))]
    simp

/-- Evaluation of `Clean` on an unrooted path whose head character is not the separator,
computed from its segment decomposition, when no segment is `.` or `..`. -/
theorem clean_unrooted (c : Char) (rest : List Char) (hc : c ≠ '/')
    (segs : List (List Char))
    (hsegs : splitAll '/' (c :: rest) = segs)
    (hall : ∀ s ∈ segs, s = [] ∨ goodSeg s = true)
    (hout : intercalateSep '/' (segs.filter (fun s => !(s == ([] : List Char)))) ≠ []) :
    clean (c :: rest)
      = intercalateSep '/' (segs.filter (fun s => !(s == ([] : List Char)))) := by
  have hrooted : isRooted (c :: rest) = false := by
    simp [isRooted, hc]
  simp only [clean]
  rw [if_neg (List.cons_ne_nil c rest)]
  rw [hrooted, hsegs]
  rw [cleanSegs_no_dots false segs [] hall]
  simp only [List.reverse_nil, List.nil_append]
  rw [if_neg (Bool.false_ne_true)]
  rw [if_neg hout]

/-- Evaluation of `Clean` on a rooted path, computed from its segment decomposition, when
no segment is `.` or `..`. -/
theorem clean_rooted (rest : List Char)
    (segs : List (List Char))
    (hsegs : splitAll '/' ('/' :: rest) = segs)
    (hall : ∀ s ∈ segs, s = [] ∨ goodSeg s = true)
    (hout : intercalateSep '/' (segs.filter (fun s => !(s == ([] : List Char)))) ≠ []) :
    clean ('/' :: rest)
      = '/' :: intercalateSep '/' (segs.filter (fun s => !(s == ([] : List Char)))) := by
  have hrooted : isRooted ('/' :: rest) = true := rfl
  simp only [clean]
  rw [if_neg (List.cons_ne_nil '/' rest)]
  rw [hrooted, hsegs]
  rw [cleanSegs_no_dots true segs [] hall]
  simp only [List.reverse_nil, List.nil_append]
  rw [if_pos trivial]
  rw [if_neg hout]

/-- Joining a well-formed relative path under the fixed store front
`var/lib/containerd/` is plain concatenation. -/
theorem join_store_good {b : List Char} (hb : goodRel b = true) :
    filepathJoin "var/lib/containerd/".data b = "var/lib/containerd/".data ++ b := by
  rw [filepathJoin, if_neg (by decide : "var/lib/containerd/".data ≠ [])]
  have hA : "var/lib/containerd/".data ++ '/' :: b
      = 'v' :: ("ar/lib/containerd".data ++ '/' :: ('/' :: b)) := rfl
  rw [hA]
  have hsegs : splitAll '/' ('v' :: ("ar/lib/containerd".data ++ '/' :: ('/' :: b)))
      = ["var".data, "lib".data, "containerd".data] ++ ([] :: splitAll '/' b) := by
    rw [show ('v' :: ("ar/lib/containerd".data ++ '/' :: ('/' :: b)))
          = "var/lib/containerd".data ++ '/' :: ('/' :: b) from rfl]
    rw [splitAll_append_sep]
    rw [show splitAll '/' "var/lib/containerd".data
          = ["var".data, "lib".data, "containerd".data] from by decide]
    rw [splitAll_cons_sep]
  have hall : ∀ s ∈ ["var".data, "lib".data, "containerd".data] ++ ([] :: splitAll '/' b),
      s = [] ∨ goodSeg s = true := by
    intro s hs
    rcases List.mem_append.mp hs with hmem | hmem
    · right
      have hcases : s = "var".data ∨ s = "lib".data ∨ s = "containerd".data := by
        simpa using hmem
      rcases hcases with h | h | h <;> (rw [h]; decide)
    · rcases List.mem_cons.mp hmem with h | h
      · left; exact h
      · right; exact goodRel_segs hb s h
  have hfilter : (["var".data, "lib".data, "containerd".data]
        ++ ([] :: splitAll '/' b)).filter (fun s => !(s == ([] : List Char)))
      = ["var".data, "lib".data, "containerd".data] ++ splitAll '/' b := by
    rw [List.filter_append]
    rw [show (["var".data, "lib".data, "containerd".data].filter
          (fun s => !(s == ([] : List Char))))
        = ["var".data, "lib".data, "containerd".data] from by decide]
    rw [List.filter_cons]
    rw [show (!(([] : List Char) == ([] : List Char))) = false from by decide]
    simp only [Bool.false_eq_true, if_false]
    rw [filter_good_segs (goodRel_segs hb)]
  have hout : intercalateSep '/' (["var".data, "lib".data, "containerd".data]
        ++ splitAll '/' b) = "var/lib/containerd".data ++ '/' :: b := by
    rw [intercalateSep_append _ _ (by simp) splitAll_ne_nil]
    rw [intercalateSep_splitAll]
    rw [show intercalateSep '/' ["var".data, "lib".data, "containerd".data]
          = "var/lib/containerd".data from by decide]
  rw [clean_unrooted 'v' _ (by decide) _ hsegs hall
    (by rw [hfilter, hout]; simp)]
  rw [hfilter, hout]
  rfl

/-- Joining a well-formed relative path under a well-formed absolute
directory is plain concatenation. -/
theorem join_abs_good {r b : List Char} (hr : goodRel r = true)
    (hb : goodRel b = true) :
    filepathJoin ('/' :: r) b = '/' :: (r ++ '/' :: b) := by
  rw [filepathJoin, if_neg (List.cons_ne_nil '/' r)]
  have hA : ('/' :: r) ++ '/' :: b = '/' :: (r ++ '/' :: b) := rfl
  rw [hA]
  have hsegs : splitAll '/' ('/' :: (r ++ '/' :: b))
      = [] :: (splitAll '/' r ++ splitAll '/' b) := by
    rw [splitAll_cons_sep]
    rw [splitAll_append_sep]
  have hall : ∀ s ∈ ([] :: (splitAll '/' r ++ splitAll '/' b)),
      s = [] ∨ goodSeg s = true := by
    intro s hs
    rcases List.mem_cons.mp hs with h | h
    · left; exact h
    · right
      rcases List.mem_append.mp h with hmem | hmem
      · exact goodRel_segs hr s hmem
      · exact goodRel_segs hb s hmem
  have hfilter : (([] :: (splitAll '/' r ++ splitAll '/' b)).filter
        (fun s => !(s == ([] : List Char))))
      = splitAll '/' r ++ splitAll '/' b := by
    rw [List.filter_cons]
    rw [show (!(([] : List Char) == ([] : List Char))) = false from by decide]
    simp only [Bool.false_eq_true, if_false]
    rw [List.filter_append, filter_good_segs (goodRel_segs hr),
      filter_good_segs (goodRel_segs hb)]
  have hout : intercalateSep '/' (splitAll '/' r ++ splitAll '/' b)
      = r ++ '/' :: b := by
    rw [intercalateSep_append _ _ splitAll_ne_nil splitAll_ne_nil]
    rw [intercalateSep_splitAll, intercalateSep_splitAll]
  rw [clean_rooted _ _ hsegs hall (by
    rw [hfilter, hout]
    exact fun hcontr => goodRel_ne_nil hr (by
      rcases r with _ | ⟨x, xs⟩
      · rfl
      · cases hcontr))]
  rw [hfilter, hout]

/-! ## Configuration rendering (`containerd.go`, lines 24-42 and 58-66)

The Go code renders a TOML document with
`fmt.Sprintf(toml, dir, dir, snapshotter, dir, dir)`. -/

/-- The `%s` fragment of Go `fmt.Sprintf`: scan the format, substituting one
argument per `%s` verb (a missing argument renders the Go placeholder `%!s(MISSING)`).
The only format string of the module uses nothing but `%s` verbs. -/
def sprintf : List Char → List String → List Char
  | [], _ => []
  | '%' :: 's' :: rest, a :: as => a.data ++ sprintf rest as
  | '%' :: 's' :: rest, [] => "%!s(MISSING)".data ++ sprintf rest []
  | c :: rest, args => c :: sprintf rest args

/-- The configuration template (`containerd.go`, lines 24-42). -/
def toml : String :=
  "\nstate = \"%s/state\"\nroot = \"%s/root\"\nsnapshotter = \"%s\"\nsubreaper = false\noom_score = 0\n\n[grpc]\n  address = \"%s/containerd.sock\"\n  uid = -1\n  gid = -1\n\n[debug]\n  address = \"%s/debug.sock\"\n  level = \"info\"\n\n[metrics]\n  address = \"\"\n"

/-- The snapshotter selection (`containerd.go`, lines 58-61): `overlay`,
overridden to `naive` on Darwin. -/
def snapshotterFor (goos : String) : String :=
  if goos = "darwin" then "naive" else "overlay"

/-- The rendered configuration document (`containerd.go`, line 63):
`fmt.Sprintf(toml, dir, dir, snapshotter, dir, dir)`. -/
def configDoc (dir snapshotter : String) : String :=
  ⟨sprintf toml.data [dir, dir, snapshotter, dir, dir]⟩

example : (configDoc "/w" "overlay").data.count '%' = 0 := by decide

set_option maxRecDepth 4096 in
/-- C6. The configuration document written by Create substitutes `workDir`
into exactly the four path slots (state, root, grpc address, debug address),
each substituted path an extension of `workDir`, and fills the snapshotter
slot with `naive` exactly on the Darwin host OS and `overlay` otherwise. -/
theorem config_doc_spec (dir goos : String) :
    (configDoc dir (snapshotterFor goos)).data
        = "\nstate = \"".data ++ (dir.data
          ++ ("/state\"\nroot = \"".data ++ (dir.data
          ++ ("/root\"\nsnapshotter = \"".data ++ ((snapshotterFor goos).data
          ++ ("\"\nsubreaper = false\noom_score = 0\n\n[grpc]\n  address = \"".data ++ (dir.data
          ++ ("/containerd.sock\"\n  uid = -1\n  gid = -1\n\n[debug]\n  address = \"".data ++ (dir.data
          ++ "/debug.sock\"\n  level = \"info\"\n\n[metrics]\n  address = \"\"\n".data)))))))))
    ∧ dir.data.isPrefixOf (dir.data ++ "/state".data) = true
    ∧ dir.data.isPrefixOf (dir.data ++ "/root".data) = true
    ∧ dir.data.isPrefixOf (dir.data ++ "/containerd.sock".data) = true
    ∧ dir.data.isPrefixOf (dir.data ++ "/debug.sock".data) = true
    ∧ (goos = "darwin" → snapshotterFor goos = "naive")
    ∧ (goos ≠ "darwin" → snapshotterFor goos = "overlay") := by
  refine ⟨rfl, isPfxOf_append _ _, isPfxOf_append _ _, isPfxOf_append _ _,
    isPfxOf_append _ _, ?_, ?_⟩
  · intro h
    rw [snapshotterFor, if_pos h]
  · intro h
    rw [snapshotterFor, if_neg h]

/-- Witness for `config_doc_spec`: the rendered document at a concrete
directory and a non-Darwin host. -/
theorem config_doc_spec_witness :
    (configDoc "/w" (snapshotterFor "linux")).data
        = "\nstate = \"".data ++ ("/w".data
          ++ ("/state\"\nroot = \"".data ++ ("/w".data
          ++ ("/root\"\nsnapshotter = \"".data ++ ((snapshotterFor "linux").data
          ++ ("\"\nsubreaper = false\noom_score = 0\n\n[grpc]\n  address = \"".data ++ ("/w".data
          ++ ("/containerd.sock\"\n  uid = -1\n  gid = -1\n\n[debug]\n  address = \"".data ++ ("/w".data
          ++ "/debug.sock\"\n  level = \"info\"\n\n[metrics]\n  address = \"\"\n".data)))))))))
    ∧ snapshotterFor "linux" = "overlay" :=
  ⟨(config_doc_spec "/w" "linux").1,
   (config_doc_spec "/w" "linux").2.2.2.2.2.2 (by decide)⟩

/-! ## The supervisor (`containerd.go`, lines 44-121)

`NewContainerd` allocates a temp directory, writes the rendered config to
`<dir>/config.toml`, resolves the daemon binary, and starts it. The outcomes
of the OS primitives it calls are supplied in `CreateEnv`; the filesystem
effect is tracked in `FS` (directory trees that exist, files written). -/

/-- Outcomes of the OS primitives used by `NewContainerd`:
`ioutil.TempDir` (the allocated directory, or failure), `ioutil.WriteFile`,
`exec.LookPath("containerd")` (the resolved binary path, or absence), and
`cmd.Start()`. -/
structure CreateEnv where
  tempDir : Option String
  writeErr : Option String
  lookPathContainerd : Option String
  startErr : Option String
  goos : String
deriving DecidableEq

/-- The filesystem effect visible to the caller: which directory trees exist
and which files have been written. -/
structure FS where
  dirs : List String
  files : List (String × String)
deriving DecidableEq

/-- The `ctd` handle (`containerd.go`, lines 44-49); the process handle and
writer are opaque and omitted. -/
structure Ctd where
  dir : String
  shutdown : Bool
deriving DecidableEq

/-- Function `NewContainerd` (`containerd.go`, lines 52-89): each early `return nil, err`
leaves the filesystem as it is at that point. -/
def NewContainerd (env : CreateEnv) (fs : FS) : Except String Ctd × FS :=
  match env.tempDir with
  | none => (Except.error "TempDir failed", fs)
  | some dir =>
    let fs1 : FS := ⟨dir :: fs.dirs, fs.files⟩
    let snapshotter := snapshotterFor env.goos
    let config := configDoc dir snapshotter
    let configPath := filepathJoinS dir "config.toml"
    match env.writeErr with
    | some e => (Except.error e, fs1)
    | none =>
      let fs2 : FS := ⟨fs1.dirs, (configPath, config) :: fs1.files⟩
      match env.lookPathContainerd with
      | none => (Except.error "Cannot find containerd in path", fs2)
      | some _ =>
        match env.startErr with
        | some e => (Except.error e, fs2)
        | none => (Except.ok ⟨dir, false⟩, fs2)

/-- C2, counterexample. With the daemon binary absent from the search
path and every earlier step succeeding, `NewContainerd` returns the error
`"Cannot find containerd in path"` — but the temporary directory it
allocated is still present afterwards: it is *not* removed before the error
returns, contradicting the claimed "no directory leaked". -/
theorem newContainerd_leaks_dir :
    (NewContainerd ⟨some "/tmp/moby-ctd1", none, none, none, "linux"⟩ ⟨[], []⟩).1
        = Except.error "Cannot find containerd in path"
    ∧ "/tmp/moby-ctd1"
        ∈ (NewContainerd ⟨some "/tmp/moby-ctd1", none, none, none, "linux"⟩ ⟨[], []⟩).2.dirs :=
  ⟨rfl, by rw [show (NewContainerd ⟨some "/tmp/moby-ctd1", none, none, none, "linux"⟩
      ⟨[], []⟩).2.dirs = ["/tmp/moby-ctd1"] from rfl]; exact List.mem_singleton.mpr rfl⟩

/-- C2, amended. When the daemon binary is absent from the search path
(and temp-dir allocation and the config write succeeded), `NewContainerd`
fails with the error message `"Cannot find containerd in path"`, and the
temporary directory allocated earlier in the call is leaked: it still exists
when the error is returned. -/
theorem newContainerd_no_daemon (env : CreateEnv) (fs : FS) (dir : String)
    (h1 : env.tempDir = some dir)
    (h2 : env.writeErr = none)
    (h3 : env.lookPathContainerd = none) :
    (NewContainerd env fs).1 = Except.error "Cannot find containerd in path"
    ∧ dir ∈ (NewContainerd env fs).2.dirs := by
  rw [NewContainerd, h1, h2, h3]
  exact ⟨rfl, List.mem_cons_self dir fs.dirs⟩

/-- Witness for `newContainerd_no_daemon` at a concrete environment. -/
theorem newContainerd_no_daemon_witness :
    (NewContainerd ⟨some "/tmp/moby-ctd2", none, none, none, "darwin"⟩ ⟨[], []⟩).1
        = Except.error "Cannot find containerd in path"
    ∧ "/tmp/moby-ctd2"
        ∈ (NewContainerd ⟨some "/tmp/moby-ctd2", none, none, none, "darwin"⟩ ⟨[], []⟩).2.dirs :=
  newContainerd_no_daemon ⟨some "/tmp/moby-ctd2", none, none, none, "darwin"⟩
    ⟨[], []⟩ "/tmp/moby-ctd2" rfl rfl rfl

/-! ## Kill and Close (`containerd.go`, lines 93-121) -/

/-- Outcomes of the OS primitives used by `Kill` and `Close`:
`Process.Kill()` and `os.RemoveAll` (the `Wait` outcome is discarded by the
code and therefore not modelled). -/
structure CloseEnv where
  killErr : Option String
  removeErr : Option String
deriving DecidableEq

/-- The observable state of one instance: the shutdown flag and whether the
working directory still exists. -/
structure CtdState where
  shutdown : Bool
  dirExists : Bool
deriving DecidableEq

/-- Function `Kill` (`containerd.go`, lines 93-104): kill the process — on failure
return the error unchanged; on success discard the `Wait` outcome and set
the shutdown flag. The directory is never touched. -/
def Kill (env : CloseEnv) (s : CtdState) : CtdState × Option String :=
  match env.killErr with
  | some e => (s, some e)
  | none => ({ s with shutdown := true }, none)

/-- The `os.RemoveAll(ctd.dir)` step of `Close` (`containerd.go`,
lines 115-118). -/
def removeStep (env : CloseEnv) (s : CtdState) : CtdState × Option String :=
  match env.removeErr with
  | some e => (s, some e)
  | none => ({ s with dirExists := false }, none)

/-- Function `Close` (`containerd.go`, lines 107-121): `Kill` first unless already
shut down, propagating its error; then remove the directory recursively. -/
def Close (env : CloseEnv) (s : CtdState) : CtdState × Option String :=
  if s.shutdown = false then
    match Kill env s with
    | (s2, some e) => (s2, some e)
    | (s2, none) => removeStep env s2
  else removeStep env s

/-- C5. Calling `Close` on an instance whose shutdown flag is false first calls
`Kill`; a `Kill` error is propagated and the state — the directory included —
is left untouched. When the flag is already true, or `Kill` succeeds, `Close`
removes the working directory: after a successful `Close` the directory no
longer exists. -/
theorem close_spec (env : CloseEnv) (s : CtdState) :
    (∀ e, s.shutdown = false → env.killErr = some e →
      Close env s = (s, some e))
    ∧ ((s.shutdown = true ∨ env.killErr = none) → env.removeErr = none →
      (Close env s).1.dirExists = false ∧ (Close env s).2 = none) := by
  constructor
  · intro e hflag hkill
    rw [Close, if_pos hflag, Kill, hkill]
  · intro hok hremove
    rcases hok with hflag | hkill
    · rw [Close, if_neg (by rw [hflag]; simp)]
      rw [removeStep, hremove]
      exact ⟨rfl, rfl⟩
    · by_cases hflag : s.shutdown = false
      · rw [Close, if_pos hflag, Kill, hkill]
        show (removeStep env { s with shutdown := true }).1.dirExists = false
            ∧ (removeStep env { s with shutdown := true }).2 = none
        rw [removeStep, hremove]
        exact ⟨rfl, rfl⟩
      · rw [Close, if_neg hflag, removeStep, hremove]
        exact ⟨rfl, rfl⟩

/-- Witness for `close_spec`: a failing kill propagates its error and leaves
the directory, and a clean close removes the directory. -/
theorem close_spec_witness :
    Close ⟨some "kill failed", none⟩ ⟨false, true⟩ = (⟨false, true⟩, some "kill failed")
    ∧ ((Close ⟨none, none⟩ ⟨false, true⟩).1.dirExists = false
       ∧ (Close ⟨none, none⟩ ⟨false, true⟩).2 = none) :=
  ⟨(close_spec ⟨some "kill failed", none⟩ ⟨false, true⟩).1 "kill failed" rfl rfl,
   (close_spec ⟨none, none⟩ ⟨false, true⟩).2 (Or.inr rfl) rfl⟩

/-! ## Fetch (`containerd.go`, lines 143-161) -/

/-- Outcomes of the OS primitives used by `Fetch`:
`exec.LookPath("dist")` (the resolved binary, or absence) and `cmd.Run()`. -/
structure FetchEnv where
  lookPathDist : Option String
  runErr : Option String
deriving DecidableEq

/-- The subprocess invocation built by `Fetch`: binary, argument list, and
whether standard output and standard error are wired to the instance's
writer. -/
structure Invocation where
  binary : String
  args : List String
  stdoutToW : Bool
  stderrToW : Bool
deriving DecidableEq

set_option linter.unusedVariables false in
/-- Function `Fetch` (`containerd.go`, lines 143-161): resolve `dist`, build
`dist --address <dir>/containerd.sock --root <dir>/root fetch <ImageName repo>`
with both output streams wired to the writer, and run it. The first
component reports the invocation issued (if any), the second the returned
error. -/
def Fetch (env : FetchEnv) (dir repo : String) (trust : Bool) :
    Option Invocation × Option String :=
  match env.lookPathDist with
  | none => (none, some "Cannot find dist in path")
  | some dist =>
    let root := filepathJoinS dir "root"
    let address := filepathJoinS dir "containerd.sock"
    let inv : Invocation :=
      ⟨dist, ["--address", address, "--root", root, "fetch", ImageName repo], true, true⟩
    match env.runErr with
    | some e => (some inv, some e)
    | none => (some inv, none)

theorem joinS_abs {dir : String} {rest : List Char} (b : String)
    (hdir : dir.data = '/' :: rest) (hr : goodRel rest = true)
    (hb : goodRel b.data = true) :
    filepathJoinS dir b = ⟨dir.data ++ '/' :: b.data⟩ := by
  rw [filepathJoinS, hdir]
  rw [join_abs_good hr hb]
  rfl

/-- C7. For every instance directory (a well-formed absolute path:
a leading `/` followed by well-formed segments) and reference, `Fetch`
invokes the resolved fetch tool with exactly the argument list
`--address <dir>/containerd.sock --root <dir>/root fetch <normalized>`,
where the normalized reference is `ImageName` of the given reference, and
wires both standard output and standard error of the subprocess to the
writer of the instance. -/
theorem fetch_invocation (env : FetchEnv) (dir repo : String) (trust : Bool)
    (dist : String) (rest : List Char)
    (hdist : env.lookPathDist = some dist)
    (hrest : dir.data = '/' :: rest)
    (hgood : goodRel rest = true) :
    (Fetch env dir repo trust).1 =
      some ⟨dist,
        ["--address", dir ++ "/containerd.sock", "--root", dir ++ "/root",
         "fetch", ImageName repo], true, true⟩ := by
  have haddr : filepathJoinS dir "containerd.sock" = dir ++ "/containerd.sock" := by
    rw [joinS_abs "containerd.sock" hrest hgood (by decide)]
    show (⟨dir.data ++ '/' :: "containerd.sock".data⟩ : String)
        = ⟨dir.data ++ "/containerd.sock".data⟩
    rfl
  have hroot : filepathJoinS dir "root" = dir ++ "/root" := by
    rw [joinS_abs "root" hrest hgood (by decide)]
    rfl
  rw [Fetch, hdist]
  rw [haddr, hroot]
  cases hrun : env.runErr <;> rfl

/-- Witness for `fetch_invocation` at a concrete directory and reference. -/
theorem fetch_invocation_witness :
    (Fetch ⟨some "/usr/local/bin/dist", none⟩ "/tmp/moby-ctd1" "alpine" false).1 =
      some ⟨"/usr/local/bin/dist",
        ["--address", "/tmp/moby-ctd1" ++ "/containerd.sock",
         "--root", "/tmp/moby-ctd1" ++ "/root",
         "fetch", ImageName "alpine"], true, true⟩ :=
  fetch_invocation ⟨some "/usr/local/bin/dist", none⟩ "/tmp/moby-ctd1" "alpine"
    false "/usr/local/bin/dist" "tmp/moby-ctd1".data rfl rfl (by decide)

/-! ## The archiver: Store (`containerd.go`, lines 164-211) -/

/-- Tar entry kinds relevant to the module (`tar.TypeReg`, `tar.TypeSymlink`,
`tar.TypeLink`, directories, and everything else). -/
inductive FT where
  | dir
  | reg
  | symlink
  | link
  | other
deriving DecidableEq

/-- One entry of a tar archive: header name, type flag, streamed payload. -/
structure TarEntry where
  name : List Char
  typ : FT
  content : List Char
deriving DecidableEq

/-- One entry yielded by `filepath.Walk` over the store root: the visited
absolute path, the type of the entry, and (for file-like entries) its bytes. -/
structure WalkEntry where
  path : List Char
  typ : FT
  content : List Char
deriving DecidableEq

/-- Modelled from the spec: the helper `tarPrefix` is not among the provided
sources (only its two call sites are). Per the spec it "write[s] a
directory-only header for a fixed logical prefix … and every intermediate
path segment of that prefix" — one directory header per non-empty leading
segment run of the path, each name ending in the separator. -/
def tarPrefix (path : List Char) : List TarEntry :=
  let segs := (splitAll '/' path).filter (fun s => !(s == ([] : List Char)))
  (List.range segs.length).map
    (fun i => ⟨intercalateSep '/' (segs.take (i + 1)) ++ ['/'], FT.dir, []⟩)

example :
    tarPrefix "var/lib/containerd/".data
      = [⟨"var/".data, FT.dir, []⟩, ⟨"var/lib/".data, FT.dir, []⟩,
         ⟨"var/lib/containerd/".data, FT.dir, []⟩] := by decide

/-- Does the code copy the payload after the header for this type flag?
(`containerd.go`, lines 196-209: `tar.TypeReg`, `tar.TypeSymlink`,
`tar.TypeLink`.) -/
def copiesContent : FT → Bool
  | FT.reg => true
  | FT.symlink => true
  | FT.link => true
  | _ => false

/-- The header-name rewrite of `Store` (`containerd.go`, lines 188-190):
`strings.TrimPrefix(strings.Replace(file, src, "", -1), sep)` re-joined under
`var/lib/containerd/`. Note the Go code removes **every** occurrence of
`src`, not only a leading one. -/
def transformName (src file : List Char) : List Char :=
  filepathJoin "var/lib/containerd/".data (trimSep (replaceAll src file))

/-- The name rewrite as the specification words it: strip the `workDir/root`
*prefix* (only), strip the leading separator, re-prefix. -/
def transformNameSpec (src file : List Char) : List Char :=
  filepathJoin "var/lib/containerd/".data
    (trimSep (if src.isPrefixOf file then file.drop src.length else file))

/-- The entries of the snapshot archive written by `Store`
(`containerd.go`, lines 164-211) on the success path: the `tarPrefix`
headers for `var/lib/containerd/`, then one entry per walked path, its name
rewritten by `transformName` and its bytes streamed for file-like types. -/
def storeEntries (src : List Char) (walk : List WalkEntry) : List TarEntry :=
  tarPrefix "var/lib/containerd/".data
    ++ walk.map (fun e =>
      ⟨transformName src e.path, e.typ,
       if copiesContent e.typ then e.content else []⟩)

/-- C3, counterexample. The name computation of the claim — strip the
`workDir/root` prefix — disagrees with the code when `workDir/root` occurs
again deeper in the visited path: `strings.Replace(file, src,
"", -1)` removes every occurrence. For `src = "/tmp/d/root"` and the visited
path `"/tmp/d/root/tmp/d/root/f"`, the code produces the header name
`"var/lib/containerd/f"`, not the claimed
`"var/lib/containerd/tmp/d/root/f"`. -/
theorem store_name_counterexample :
    transformName "/tmp/d/root".data "/tmp/d/root/tmp/d/root/f".data
        = "var/lib/containerd/f".data
    ∧ transformNameSpec "/tmp/d/root".data "/tmp/d/root/tmp/d/root/f".data
        = "var/lib/containerd/tmp/d/root/f".data
    ∧ transformName "/tmp/d/root".data "/tmp/d/root/tmp/d/root/f".data
        ≠ transformNameSpec "/tmp/d/root".data "/tmp/d/root/tmp/d/root/f".data := by
  refine ⟨by decide, by decide, by decide⟩

/-- C3, amended. For every walked entry whose path extends the store
root `src` by a well-formed relative path `rel`, *and in which `src` occurs
only as the leading prefix*, the snapshot archive holds an entry named
`var/lib/containerd/<rel>` — a name starting with `var/lib/containerd/` —
whose streamed content is exactly the bytes of the file when the entry is a
regular file. (Without the only-leading-occurrence proviso the code removes
every occurrence of `src`, not just the prefix; see the counterexample.) -/
theorem store_snapshot_entries (src rel : List Char) (walk : List WalkEntry)
    (e : WalkEntry)
    (hsrc : src ≠ [])
    (hmem : e ∈ walk)
    (hpath : e.path = src ++ '/' :: rel)
    (honce : containsSeq src ('/' :: rel) = false)
    (hgood : goodRel rel = true)
    (hreg : e.typ = FT.reg) :
    (⟨"var/lib/containerd/".data ++ rel, FT.reg, e.content⟩ : TarEntry)
        ∈ storeEntries src walk
    ∧ "var/lib/containerd/".data.isPrefixOf
        ("var/lib/containerd/".data ++ rel) = true := by
  have hname : transformName src e.path = "var/lib/containerd/".data ++ rel := by
    rw [transformName, hpath]
    cases src with
    | nil => exact absurd rfl hsrc
    | cons p ps =>
      rw [replaceAll_strip honce]
      rw [show trimSep ('/' :: rel) = rel from rfl]
      exact join_store_good hgood
  refine ⟨?_, isPfxOf_append _ _⟩
  rw [storeEntries]
  apply List.mem_append_right
  apply List.mem_map.mpr
  refine ⟨e, hmem, ?_⟩
  show (⟨transformName src e.path, e.typ,
      if copiesContent e.typ then e.content else []⟩ : TarEntry)
    = ⟨"var/lib/containerd/".data ++ rel, FT.reg, e.content⟩
  rw [hname, hreg]
  rfl

/-- Witness for `store_snapshot_entries` at a single-file walk. -/
theorem store_snapshot_entries_witness :
    (⟨"var/lib/containerd/".data ++ "blobs/x".data, FT.reg, "hi".data⟩ : TarEntry)
        ∈ storeEntries "/t/root".data [⟨"/t/root/blobs/x".data, FT.reg, "hi".data⟩]
    ∧ "var/lib/containerd/".data.isPrefixOf
        ("var/lib/containerd/".data ++ "blobs/x".data) = true :=
  store_snapshot_entries "/t/root".data "blobs/x".data
    [⟨"/t/root/blobs/x".data, FT.reg, "hi".data⟩]
    ⟨"/t/root/blobs/x".data, FT.reg, "hi".data⟩
    (by decide) (List.mem_singleton.mpr rfl) rfl (by decide) (by decide) rfl

/-! ## The archiver: Bundle (`containerd.go`, lines 214-258) -/

/-- Outcomes of the fallible tar-writing steps of `Bundle`, in source order:
the `tarPrefix` call, the `config.json` header write and payload copy, the
`image` header write and payload copy, and the tar-writer close. -/
structure TarEnv where
  tarPfxErr : Option String
  hdr1Err : Option String
  copy1Err : Option String
  hdr2Err : Option String
  copy2Err : Option String
  closeErr : Option String
deriving DecidableEq

/-- Every tar step of `Bundle` succeeded. -/
def tarOk (t : TarEnv) : Bool :=
  t.tarPfxErr.isNone && t.hdr1Err.isNone && t.copy1Err.isNone
    && t.hdr2Err.isNone && t.copy2Err.isNone && t.closeErr.isNone

/-- Function `Bundle` (`containerd.go`, lines 214-258): build an in-memory tar blob —
`tarPrefix` headers for `path + "/"`, a regular file `path + "/config.json"`
holding `config`, a regular file `path + "/image"` holding the raw `image`
string — then call `Fetch(image, trust)`. Every error path returns
`([]byte{}, err)`: the empty entry list paired with the error. -/
def Bundle (tenv : TarEnv) (fenv : FetchEnv) (dir path image : String)
    (config : List Char) (trust : Bool) : List TarEntry × Option String :=
  match tenv.tarPfxErr with
  | some e => ([], some e)
  | none =>
  match tenv.hdr1Err with
  | some e => ([], some e)
  | none =>
  match tenv.copy1Err with
  | some e => ([], some e)
  | none =>
  match tenv.hdr2Err with
  | some e => ([], some e)
  | none =>
  match tenv.copy2Err with
  | some e => ([], some e)
  | none =>
  match tenv.closeErr with
  | some e => ([], some e)
  | none =>
  match (Fetch fenv dir image trust).2 with
  | some e => ([], some e)
  | none =>
    ( tarPrefix (path ++ "/").data
        ++ [⟨(path ++ "/" ++ "config.json").data, FT.reg, config⟩,
            ⟨(path ++ "/" ++ "image").data, FT.reg, image.data⟩],
      none)

/-- Mapping to directory entries contributes no regular-file entry. -/
theorem filter_reg_map_dir {A : Type} (l : List A) (f : A → TarEntry)
    (hf : ∀ x, (f x).typ = FT.dir) :
    (l.map f).filter (fun e => e.typ == FT.reg) = [] := by
  induction l with
  | nil => rfl
  | cons x xs ih =>
    rw [List.map_cons, List.filter_cons]
    rw [show ((f x).typ == FT.reg) = false from by rw [hf x]; rfl]
    simp only [Bool.false_eq_true, if_false]
    exact ih

/-- The `tarPrefix` headers are all directory entries, so they contribute no
regular-file entry. -/
theorem tarPrefix_no_reg (p : List Char) :
    ( tarPrefix p).filter (fun e => e.typ == FT.reg) = [] := by
  rw [ tarPrefix]
  exact filter_reg_map_dir _ _ (fun i => rfl)

/-- C4. A successful `Bundle` returns an archive whose regular-file
entries are exactly two, in order: `path + "/config.json"` holding the
config bytes verbatim, then `path + "/image"` holding the literal (not
normalized) image reference. All other entries are the directory headers of
the `tarPrefix` preamble. -/
theorem bundle_two_files (tenv : TarEnv) (fenv : FetchEnv)
    (dir path image : String) (config : List Char) (trust : Bool)
    (entries : List TarEntry)
    (h : Bundle tenv fenv dir path image config trust = (entries, none)) :
    entries.filter (fun e => e.typ == FT.reg)
      = [⟨(path ++ "/" ++ "config.json").data, FT.reg, config⟩,
         ⟨(path ++ "/" ++ "image").data, FT.reg, image.data⟩] := by
  obtain ⟨o1, o2, o3, o4, o5, o6⟩ := tenv
  cases o1 with
  | some e => simp [Bundle] at h
  | none =>
  cases o2 with
  | some e => simp [Bundle] at h
  | none =>
  cases o3 with
  | some e => simp [Bundle] at h
  | none =>
  cases o4 with
  | some e => simp [Bundle] at h
  | none =>
  cases o5 with
  | some e => simp [Bundle] at h
  | none =>
  cases o6 with
  | some e => simp [Bundle] at h
  | none =>
  cases hf : (Fetch fenv dir image trust).2 with
  | some e => simp [Bundle, hf] at h
  | none =>
    simp only [Bundle] at h
    rw [hf] at h
    have hent : tarPrefix (path ++ "/").data
        ++ [⟨(path ++ "/" ++ "config.json").data, FT.reg, config⟩,
            ⟨(path ++ "/" ++ "image").data, FT.reg, image.data⟩] = entries := by
      have := congrArg Prod.fst h
      simpa using this
    rw [← hent]
    rw [List.filter_append, tarPrefix_no_reg]
    rfl

/-- Witness for `bundle_two_files` at concrete arguments. -/
theorem bundle_two_files_witness :
    (Bundle ⟨none, none, none, none, none, none⟩ ⟨some "/bin/dist", none⟩
        "/w" "mypath" "alpine" "cfgbytes".data false).1.filter
          (fun e => e.typ == FT.reg)
      = [⟨("mypath" ++ "/" ++ "config.json").data, FT.reg, "cfgbytes".data⟩,
         ⟨("mypath" ++ "/" ++ "image").data, FT.reg, "alpine".data⟩] :=
  bundle_two_files ⟨none, none, none, none, none, none⟩ ⟨some "/bin/dist", none⟩
    "/w" "mypath" "alpine" "cfgbytes".data false _ rfl

/-- C8. Whenever `Bundle` returns an error — from any tar step or from
the final `Fetch` — the byte payload it returns is empty; and when every tar
step succeeded but `Fetch` fails, `Bundle` returns exactly the `Fetch` error
in place of the archive. -/
theorem bundle_error_empty (tenv : TarEnv) (fenv : FetchEnv)
    (dir path image : String) (config : List Char) (trust : Bool) :
    (∀ e, (Bundle tenv fenv dir path image config trust).2 = some e →
        (Bundle tenv fenv dir path image config trust).1 = [])
    ∧ (tarOk tenv = true → ∀ e, (Fetch fenv dir image trust).2 = some e →
        Bundle tenv fenv dir path image config trust = ([], some e)) := by
  obtain ⟨o1, o2, o3, o4, o5, o6⟩ := tenv
  cases o1 with
  | some e0 => exact ⟨fun e _ => rfl, fun htar => absurd htar (by simp [tarOk])⟩
  | none =>
  cases o2 with
  | some e0 => exact ⟨fun e _ => rfl, fun htar => absurd htar (by simp [tarOk])⟩
  | none =>
  cases o3 with
  | some e0 => exact ⟨fun e _ => rfl, fun htar => absurd htar (by simp [tarOk])⟩
  | none =>
  cases o4 with
  | some e0 => exact ⟨fun e _ => rfl, fun htar => absurd htar (by simp [tarOk])⟩
  | none =>
  cases o5 with
  | some e0 => exact ⟨fun e _ => rfl, fun htar => absurd htar (by simp [tarOk])⟩
  | none =>
  cases o6 with
  | some e0 => exact ⟨fun e _ => rfl, fun htar => absurd htar (by simp [tarOk])⟩
  | none =>
  constructor
  · intro e he
    cases hf : (Fetch fenv dir image trust).2 with
    | some e2 => simp [Bundle, hf]
    | none =>
      exfalso
      rw [Bundle, hf] at he
      simp at he
  · intro _ e hf
    rw [Bundle, hf]

/-- Witness for `bundle_error_empty`: a failing fetch after a clean archive
build yields the empty payload together with the fetch error. -/
theorem bundle_error_empty_witness :
    Bundle ⟨none, none, none, none, none, none⟩ ⟨some "/bin/dist", some "exit status 1"⟩
        "/w" "p" "img" "c".data true = ([], some "exit status 1") :=
  (bundle_error_empty ⟨none, none, none, none, none, none⟩
      ⟨some "/bin/dist", some "exit status 1"⟩ "/w" "p" "img" "c".data true).2
    rfl "exit status 1" rfl

/-- C9. The `trust` flag influences nothing observable: `Fetch` builds
the identical invocation and outcome, and `Bundle` the identical archive and
outcome, whether the flag is true or false — the parameter is accepted but
never consulted. -/
theorem trust_has_no_influence :
    (∀ (fenv : FetchEnv) (dir repo : String),
      Fetch fenv dir repo true = Fetch fenv dir repo false)
    ∧ (∀ (tenv : TarEnv) (fenv : FetchEnv) (dir path image : String)
        (config : List Char),
      Bundle tenv fenv dir path image config true
        = Bundle tenv fenv dir path image config false) :=
  ⟨fun _ _ _ => rfl, fun _ _ _ _ _ _ => rfl⟩
